import Mathlib

/-!
Git_Query: `backend/services/githubService.js`

A shallow embedding of the repository-content retrieval pipeline
(`isRelevantFile`, `getRepoContent`) and the properties proved about it.

Modelling conventions.

* A JavaScript string is a `List Char` (`Str`).  Every pattern the source
  searches for (`"node_modules"`, `"dist"`, `"build"`, `"/"`, `"."`,
  `github.com/`) is ASCII, so searching by code point and searching by
  UTF-16 code unit agree.
* `axios.get` is a function from the requested URL to either a rejection
  (`JsError`) or a response; every call is recorded, in issue order, in the
  `requests` log of the outcome.
* JSON responses are typed records with optional fields, one field per
  access path the source reads.
* The `data` of a response is what axios delivers.  Line 95 gives `axios.get`
  no `responseType`, so axios's default response transform applies: a body
  that is valid JSON arrives parsed, any other body arrives as its text
  (`transformResponse`).
-/

namespace GitQuery

/-- A JavaScript string, as its list of characters. -/
abbrev Str := List Char

/-! ## String primitives used by the source -/

/-- `s.includes(pat)`: `pat` occurs in `s` as a contiguous substring. -/
def includes : Str → Str → Bool
  | [], pat => pat.isPrefixOf []
  | c :: t, pat => pat.isPrefixOf (c :: t) || includes t pat

/-- `s.split(sep)` for a one-character separator: the maximal pieces between
separators, in order; never the empty array (`"".split("/")` is `[""]`). -/
def split (sep : Char) : Str → List Str
  | [] => [[]]
  | c :: t =>
    if c = sep then [] :: split sep t
    else
      match split sep t with
      | [] => [[c]]
      | piece :: rest => (c :: piece) :: rest

/-- `arr[arr.length - 1]` and `arr.pop()` on an array of strings that is never
empty (the result of `split`): its last element. -/
def lastOf (arr : List Str) : Str :=
  arr.getD (arr.length - 1) []

/-! ## `RELEVANT_EXTENSIONS` and `isRelevantFile` (lines 3-43) -/

/-- The allow-list `RELEVANT_EXTENSIONS` (lines 3-25), in source order. -/
def RELEVANT_EXTENSIONS : List Str :=
  [ ".js".toList, ".jsx".toList, ".ts".toList, ".tsx".toList, ".py".toList,
    ".md".toList, ".json".toList, ".html".toList, ".css".toList,
    ".scss".toList, "Dockerfile".toList, ".yml".toList, ".yaml".toList,
    ".sh".toList, ".env.example".toList, ".xml".toList, ".java".toList,
    ".go".toList, ".php".toList, ".dart".toList, ".lua".toList ]

/-- Lines 28-32: the path contains one of the three exclusion substrings. -/
def isExcluded (filePath : Str) : Bool :=
  includes filePath "node_modules".toList ||
  includes filePath "dist".toList ||
  includes filePath "build".toList

/-- Line 37: `parts[parts.length - 1]` with `parts = filePath.split("/")`. -/
def lastPart (filePath : Str) : Str :=
  lastOf (split '/' filePath)

/-- Lines 36-40: the constant `extension` of `isRelevantFile`. -/
def extensionKey (filePath : Str) : Str :=
  if includes (lastPart filePath) ['.'] then
    '.' :: lastOf (split '.' (lastPart filePath))
  else lastPart filePath

/-- The body of `isRelevantFile` (lines 27-43) with the set it consults as a
parameter; `Set.prototype.has` on strings is membership by equality. -/
def isRelevantFileIn (allow : List Str) (filePath : Str) : Bool :=
  if isExcluded filePath then false
  else allow.contains (extensionKey filePath)

/-- The function `isRelevantFile` (lines 27-43). -/
def isRelevantFile (filePath : Str) : Bool :=
  isRelevantFileIn RELEVANT_EXTENSIONS filePath

/-! ## The URL match (line 48) -/

/-- The literal part `github\.com\/` of the regular expression, matched at the
head of the input; the remainder of the input on success. -/
def stripLiteral : Str → Str → Option Str
  | [], s => some s
  | _ :: _, [] => none
  | p :: ps, c :: t => if c = p then stripLiteral ps t else none

/-- The sub-expression `[^/]+` followed by the rest of the expression `k`, as
a backtracking matcher runs it: at least one character other than `/` is
consumed; the greedy quantifier first tries to consume one more character, and
only if the rest then fails does it stop here and hand the captured text `acc`
and the remaining input to `k`. -/
def plusNotSlash {α : Type} (k : Str → Str → Option α) : Str → Str → Option α
  | _, [] => none
  | acc, c :: t =>
    if c = '/' then none
    else (plusNotSlash k (acc ++ [c]) t).orElse fun _ => k (acc ++ [c]) t

/-- The whole expression `github\.com\/([^/]+)\/([^/]+)` anchored at the head
of the input: the two capture groups on success. -/
def matchHere (s : Str) : Option (Str × Str) :=
  match stripLiteral "github.com/".toList s with
  | none => none
  | some afterHost =>
    plusNotSlash
      (fun owner afterOwner =>
        match afterOwner with
        | '/' :: afterSlash =>
          plusNotSlash (fun repo _ => some (owner, repo)) [] afterSlash
        | _ => none)
      [] afterHost

/-- Line 48, `repoUrl.match(/github\.com\/([^/]+)\/([^/]+)/)`: the expression is
tried at each start position from the left; `none` is the JavaScript `null`,
and `some (owner, repo)` holds the capture groups 1 and 2 (line 54). -/
def urlMatch : Str → Option (Str × Str)
  | [] => matchHere []
  | c :: t => (matchHere (c :: t)).orElse fun _ => urlMatch t

/-! ## Errors, responses and the HTTP collaborator -/

/-- A thrown JavaScript error: its `message` and `error.response?.status`
(`none` when the error carries no response, as for `new Error(...)`). -/
structure JsError where
  message : Str
  status : Option Nat
  deriving DecidableEq, Repr

/-- One element of the `tree` array: the fields the source reads. -/
structure TreeEntry where
  path : Str
  type : Str
  deriving DecidableEq, Repr

/-- A JavaScript value that `response.data` can be: a string, or what
`JSON.parse` produces.  A number is kept as the bit pattern of its double; no
arithmetic is done on it. -/
inductive JsValue where
  | string (s : Str)
  | number (bits : Nat)
  | boolean (b : Bool)
  | null
  | array (items : List JsValue)
  | object (fields : List (Str × JsValue))

/-- The `data` of an axios response: `value` is `data` itself, as line 97
stores it, and the other fields are the access paths the source reads from
it, `data.default_branch`, `data?.commit?.commit?.tree?.sha`, `data?.tree`. -/
structure Data where
  default_branch : Option Str
  commit_commit_tree_sha : Option Str
  tree : Option (List TreeEntry)
  value : JsValue

/-- An axios response. -/
structure Response where
  data : Data

/-- The default response transform of axios, which makes `data` from the text
`body` of the response when the request gives no `responseType`: the value
`JSON.parse(body)` when that succeeds, and `body` itself when it throws
(`jsonParse` is `JSON.parse`, `none` where it throws). -/
def transformResponse (jsonParse : Str → Option JsValue) (body : Str) : JsValue :=
  match jsonParse body with
  | some parsed => parsed
  | none => .string body

/-- The collaborator `axios.get`: for each URL, a rejection or a response. -/
abbrev Http := Str → Except JsError Response

/-- The object built at lines 96-99; `metadata_source` is `metadata.source`. -/
structure ContentRecord where
  pageContent : JsValue
  metadata_source : Str

/-- What a call of `getRepoContent` does: how its promise settles, and the
URLs passed to `axios.get`, in issue order. -/
structure Outcome where
  result : Except JsError (List ContentRecord)
  requests : List Str

/-- JavaScript truthiness of an optional string: present and not empty. -/
def truthy : Option Str → Option Str
  | some (c :: t) => some (c :: t)
  | _ => none

/-! ## `Promise.all` -/

/-- The rejection `Promise.all` reports: that of the rejected promise which
settles first (`settle i` is the settling time of the promise at index `i`;
among equal times the lower index). `none` when no promise is rejected. -/
def earliestRejection {α : Type} (settle : Nat → Nat) :
    Nat → List (Except JsError α) → Option (Nat × JsError)
  | _, [] => none
  | i, .ok _ :: rest => earliestRejection settle (i + 1) rest
  | i, .error e :: rest =>
    match earliestRejection settle (i + 1) rest with
    | none => some (settle i, e)
    | some (t, e') => if t < settle i then some (t, e') else some (settle i, e)

/-- The values of the fulfilled promises, in order. -/
def fulfilled {α : Type} : List (Except JsError α) → List α
  | [] => []
  | .ok a :: rest => a :: fulfilled rest
  | .error _ :: rest => fulfilled rest

/-- The settlement of `Promise.all(promises)`: rejected with the earliest
rejection if there is one, else fulfilled with all the values in order. -/
def promiseAll {α : Type} (settle : Nat → Nat) (promises : List (Except JsError α)) :
    Except JsError (List α) :=
  match earliestRejection settle 0 promises with
  | some (_, e) => .error e
  | none => .ok (fulfilled promises)

/-! ## `getRepoContent` (lines 45-111) -/

/-- The error thrown at lines 50-52. -/
def invalidUrlError : JsError :=
  ⟨"Invalid GitHub URL format. Use https://github.com/owner/repo".toList, none⟩

/-- Line 58. -/
def repoMetaUrl (owner repo : Str) : Str :=
  "https://api.github.com/repos/".toList ++ owner ++ "/".toList ++ repo

/-- Line 68. -/
def branchInfoUrl (owner repo defaultBranch : Str) : Str :=
  "https://api.github.com/repos/".toList ++ owner ++ "/".toList ++ repo ++
    "/branches/".toList ++ defaultBranch

/-- Line 76. -/
def treeUrl (owner repo treeSha : Str) : Str :=
  "https://api.github.com/repos/".toList ++ owner ++ "/".toList ++ repo ++
    "/git/trees/".toList ++ treeSha ++ "?recursive=1".toList

/-- Line 94. -/
def contentUrl (owner repo defaultBranch path : Str) : Str :=
  "https://raw.githubusercontent.com/".toList ++ owner ++ "/".toList ++ repo ++
    "/".toList ++ defaultBranch ++ "/".toList ++ path

/-- Lines 83-84: the tree filtered by `file.type === "blob" &&
isRelevantFile(file.path)`, before `.slice(0, 100)`. -/
def relevantBlobs (tree : List TreeEntry) : List TreeEntry :=
  tree.filter fun file => decide (file.type = "blob".toList) && isRelevantFile file.path

/-- Lines 83-85: the constant `filesToFetch`. -/
def filesToFetch (tree : List TreeEntry) : List TreeEntry :=
  (relevantBlobs tree).take 100

/-- Lines 93-100: the settlement of the promise the `map` callback returns for
one selected file. -/
def fetchContent (http : Http) (owner repo defaultBranch : Str) (file : TreeEntry) :
    Except JsError ContentRecord :=
  match http (contentUrl owner repo defaultBranch file.path) with
  | .error e => .error e
  | .ok contentResponse => .ok ⟨contentResponse.data.value, file.path⟩

/-- The text `error.response?.status || ""` takes in the template literal of
line 106: the decimal status, or nothing when it is absent or zero. -/
def statusText : Option Nat → Str
  | some (n + 1) => Nat.toDigits 10 (n + 1)
  | _ => []

/-- Lines 104-109: the error the `catch` block throws for a caught `error`. -/
def wrapError (error : JsError) : JsError :=
  ⟨"Failed to fetch repository content: ".toList ++ statusText error.status ++
      " ".toList ++ error.message, none⟩

/-- The `try` block (lines 57-102) for the captured `owner` and `repo`.  The
first component is what the block does: `.error e` when `e` is thrown inside it
(a rejected `await` or a `throw`), `.ok p` when it reaches `return
Promise.all(contentPromises)`, `p` being the settlement of that promise.  The
second component is the log of requests. -/
def tryBlock (http : Http) (settle : Nat → Nat) (owner repo : Str) :
    Except JsError (Except JsError (List ContentRecord)) × List Str :=
  let metaUrl := repoMetaUrl owner repo
  match http metaUrl with
  | .error e => (.error e, [metaUrl])
  | .ok repoMetaResponse =>
    match truthy repoMetaResponse.data.default_branch with
    | none =>
      (.error ⟨"Unable to detect default branch for this repository.".toList, none⟩,
        [metaUrl])
    | some defaultBranch =>
      let branchUrl := branchInfoUrl owner repo defaultBranch
      match http branchUrl with
      | .error e => (.error e, [metaUrl, branchUrl])
      | .ok branchInfoResponse =>
        match truthy branchInfoResponse.data.commit_commit_tree_sha with
        | none =>
          (.error ⟨"Unable to retrieve tree SHA for default branch.".toList, none⟩,
            [metaUrl, branchUrl])
        | some treeSha =>
          let treesUrl := treeUrl owner repo treeSha
          match http treesUrl with
          | .error e => (.error e, [metaUrl, branchUrl, treesUrl])
          | .ok treeResponse =>
            match treeResponse.data.tree with
            | none =>
              (.error ⟨"Invalid response from GitHub API.".toList, none⟩,
                [metaUrl, branchUrl, treesUrl])
            | some tree =>
              let files := filesToFetch tree
              if files.length = 0 then
                (.error ⟨"No relevant code or text files found in this repository.".toList,
                    none⟩,
                  [metaUrl, branchUrl, treesUrl])
              else
                (.ok (promiseAll settle
                    (files.map (fetchContent http owner repo defaultBranch))),
                  [metaUrl, branchUrl, treesUrl] ++
                    files.map fun file => contentUrl owner repo defaultBranch file.path)

/-- The function `getRepoContent` (lines 45-111).  A failed match throws
before the `try` block, so outside the `catch`.  An error thrown inside the
`try` block is caught and rethrown wrapped.  The promise of line 102 is
returned without `await`, so the function's promise settles as that promise
does and a rejection of it does not pass through the `catch`. -/
def getRepoContent (http : Http) (settle : Nat → Nat) (repoUrl : Str) : Outcome :=
  match urlMatch repoUrl with
  | none => ⟨.error invalidUrlError, []⟩
  | some (owner, repo) =>
    match tryBlock http settle owner repo with
    | (.error error, log) => ⟨.error (wrapError error), log⟩
    | (.ok promise, log) => ⟨promise, log⟩

/-! ## Vocabulary of the specification -/

/-- The input contains `github.com/` followed by a non-empty owner segment, a
`/` and a non-empty repo segment (a segment has no `/`). -/
def HasOwnerRepo (s : Str) : Prop :=
  ∃ pre owner repo post,
    s = pre ++ "github.com/".toList ++ owner ++ '/' :: repo ++ post ∧
      owner ≠ [] ∧ '/' ∉ owner ∧ repo ≠ [] ∧ '/' ∉ repo

/-- The repository-metadata, branch and tree requests for `owner/repo` all
succeed: the first names the default branch `branch`, the second the tree
identifier `sha`, the third carries the entries `tree`. -/
def Resolved (http : Http) (owner repo branch sha : Str) (tree : List TreeEntry) : Prop :=
  ∃ r1 r2 r3,
    http (repoMetaUrl owner repo) = .ok r1 ∧
    r1.data.default_branch = some branch ∧ branch ≠ [] ∧
    http (branchInfoUrl owner repo branch) = .ok r2 ∧
    r2.data.commit_commit_tree_sha = some sha ∧ sha ≠ [] ∧
    http (treeUrl owner repo sha) = .ok r3 ∧
    r3.data.tree = some tree

/-- The failures of the stages that run inside the `try` block up to the
selection, each with the error it raises: a rejected request raises the
rejection, a missing field or an empty selection raises the error the source
constructs for it. -/
inductive StageFailure (http : Http) (owner repo : Str) : JsError → Prop
  | repoRequest (e : JsError) :
      http (repoMetaUrl owner repo) = .error e → StageFailure http owner repo e
  | noBranch (r1 : Response) :
      http (repoMetaUrl owner repo) = .ok r1 →
      (r1.data.default_branch = none ∨ r1.data.default_branch = some []) →
      StageFailure http owner repo
        ⟨"Unable to detect default branch for this repository.".toList, none⟩
  | branchRequest (r1 : Response) (branch : Str) (e : JsError) :
      http (repoMetaUrl owner repo) = .ok r1 →
      r1.data.default_branch = some branch → branch ≠ [] →
      http (branchInfoUrl owner repo branch) = .error e →
      StageFailure http owner repo e
  | noSha (r1 r2 : Response) (branch : Str) :
      http (repoMetaUrl owner repo) = .ok r1 →
      r1.data.default_branch = some branch → branch ≠ [] →
      http (branchInfoUrl owner repo branch) = .ok r2 →
      (r2.data.commit_commit_tree_sha = none ∨ r2.data.commit_commit_tree_sha = some []) →
      StageFailure http owner repo
        ⟨"Unable to retrieve tree SHA for default branch.".toList, none⟩
  | treeRequest (r1 r2 : Response) (branch sha : Str) (e : JsError) :
      http (repoMetaUrl owner repo) = .ok r1 →
      r1.data.default_branch = some branch → branch ≠ [] →
      http (branchInfoUrl owner repo branch) = .ok r2 →
      r2.data.commit_commit_tree_sha = some sha → sha ≠ [] →
      http (treeUrl owner repo sha) = .error e →
      StageFailure http owner repo e
  | noTree (r1 r2 r3 : Response) (branch sha : Str) :
      http (repoMetaUrl owner repo) = .ok r1 →
      r1.data.default_branch = some branch → branch ≠ [] →
      http (branchInfoUrl owner repo branch) = .ok r2 →
      r2.data.commit_commit_tree_sha = some sha → sha ≠ [] →
      http (treeUrl owner repo sha) = .ok r3 →
      r3.data.tree = none →
      StageFailure http owner repo ⟨"Invalid response from GitHub API.".toList, none⟩
  | noFiles (branch sha : Str) (tree : List TreeEntry) :
      Resolved http owner repo branch sha tree →
      filesToFetch tree = [] →
      StageFailure http owner repo
        ⟨"No relevant code or text files found in this repository.".toList, none⟩

/-! ## A sample collaborator -/

/-- A tree entry as the JSON object it is in the tree response. -/
def entryValue (entry : TreeEntry) : JsValue :=
  .object [("path".toList, .string entry.path), ("type".toList, .string entry.type)]

/-- A sample `axios.get` for the repository `o/r`: default branch `main`, tree
identifier `abc`, the given tree, and two raw files that can be fetched:
`README.md`, whose body is the text `hello`, and `data.json`, whose body is
the text `[]`, which axios delivers parsed, as the empty array.  Every other
request is rejected with status 404. -/
def sampleHttp (tree : List TreeEntry) : Http := fun url =>
  if url = "https://api.github.com/repos/o/r".toList then
    .ok ⟨⟨some "main".toList, none, none,
      .object [("default_branch".toList, .string "main".toList)]⟩⟩
  else if url = "https://api.github.com/repos/o/r/branches/main".toList then
    .ok ⟨⟨none, some "abc".toList, none,
      .object [("commit".toList, .object [("commit".toList,
        .object [("tree".toList, .object [("sha".toList, .string "abc".toList)])])])]⟩⟩
  else if url = "https://api.github.com/repos/o/r/git/trees/abc?recursive=1".toList then
    .ok ⟨⟨none, none, some tree, .object [("tree".toList, .array (tree.map entryValue))]⟩⟩
  else if url = "https://raw.githubusercontent.com/o/r/main/README.md".toList then
    .ok ⟨⟨none, none, none, .string "hello".toList⟩⟩
  else if url = "https://raw.githubusercontent.com/o/r/main/data.json".toList then
    .ok ⟨⟨none, none, none, .array []⟩⟩
  else .error ⟨"Request failed with status code 404".toList, some 404⟩

/-! ## Lemmas: string primitives -/

theorem includes_iff (s pat : Str) : includes s pat = true ↔ pat <:+: s := by
  induction s with
  | nil =>
    cases pat with
    | nil => simp [includes]
    | cons p ps => simp [includes, List.isPrefixOf]
  | cons c t ih =>
    rw [includes, Bool.or_eq_true, ih, List.infix_cons_iff, List.isPrefixOf_iff_prefix]

theorem includes_singleton (s : Str) (c : Char) : includes s [c] = true ↔ c ∈ s := by
  rw [includes_iff]
  constructor
  · rintro ⟨a, b, h⟩
    rw [← h]
    simp
  · intro h
    obtain ⟨a, b, h⟩ := List.append_of_mem h
    exact ⟨a, b, by rw [h]; simp⟩

theorem split_ne_nil (sep : Char) (s : Str) : split sep s ≠ [] := by
  induction s with
  | nil => simp [split]
  | cons c t ih =>
    rw [split]
    split
    · simp
    · split <;> simp

theorem lastOf_singleton (a : Str) : lastOf [a] = a := by
  simp [lastOf]

theorem lastOf_cons (a : Str) (arr : List Str) (h : arr ≠ []) :
    lastOf (a :: arr) = lastOf arr := by
  cases arr with
  | nil => exact absurd rfl h
  | cons b r => simp [lastOf]

theorem split_of_not_mem (sep : Char) (s : Str) (h : sep ∉ s) : split sep s = [s] := by
  induction s with
  | nil => rfl
  | cons c t ih =>
    have hc : ¬ c = sep := fun e => h (by simp [e])
    have ht : sep ∉ t := fun m => h (List.mem_cons_of_mem _ m)
    rw [split, if_neg hc, ih ht]

theorem length_split_of_mem (sep : Char) (s : Str) (h : sep ∈ s) :
    2 ≤ (split sep s).length := by
  induction s with
  | nil => simp at h
  | cons c t ih =>
    rw [split]
    by_cases hc : c = sep
    · rw [if_pos hc]
      have := List.length_pos.mpr (split_ne_nil sep t)
      simp only [List.length_cons]
      omega
    · rw [if_neg hc]
      have ht : sep ∈ t := by
        rcases List.mem_cons.mp h with e | m
        · exact absurd e.symm hc
        · exact m
      have := ih ht
      split
      · rename_i heq
        rw [heq] at this
        simp at this
      · rename_i piece rest heq
        rw [heq] at this
        simpa using this

theorem lastOf_split_append (sep : Char) (dir seg : Str) :
    lastOf (split sep (dir ++ sep :: seg)) = lastOf (split sep seg) := by
  induction dir with
  | nil =>
    rw [List.nil_append, split, if_pos rfl, lastOf_cons _ _ (split_ne_nil sep seg)]
  | cons c t ih =>
    rw [List.cons_append, split]
    by_cases hc : c = sep
    · rw [if_pos hc, lastOf_cons _ _ (split_ne_nil sep _), ih]
    · rw [if_neg hc]
      have hlen := length_split_of_mem sep (t ++ sep :: seg) (by simp)
      split
      · rename_i heq
        rw [heq] at hlen
        simp at hlen
      · rename_i piece rest heq
        rw [heq] at hlen ih
        have hrest : rest ≠ [] := by
          intro e
          rw [e] at hlen
          simp at hlen
        rw [lastOf_cons _ _ hrest, ← ih, lastOf_cons _ _ hrest]

theorem exists_last_occurrence (sep : Char) (s : Str) (h : sep ∈ s) :
    ∃ dir seg, s = dir ++ sep :: seg ∧ sep ∉ seg := by
  induction s with
  | nil => simp at h
  | cons c t ih =>
    by_cases ht : sep ∈ t
    · obtain ⟨dir, seg, e, hs⟩ := ih ht
      exact ⟨c :: dir, seg, by rw [e]; rfl, hs⟩
    · rcases List.mem_cons.mp h with e | m
      · exact ⟨[], t, by rw [e]; rfl, ht⟩
      · exact absurd m ht

/-- The last piece of `split sep s` is the text after the last separator, or
all of `s` when it has no separator. -/
theorem lastOf_split_spec (sep : Char) (s : Str) :
    sep ∉ lastOf (split sep s) ∧
      ((sep ∉ s ∧ lastOf (split sep s) = s) ∨
        (sep ∈ s ∧ ∃ dir, s = dir ++ sep :: lastOf (split sep s))) := by
  by_cases h : sep ∈ s
  · obtain ⟨dir, seg, e, hs⟩ := exists_last_occurrence sep s h
    have hl : lastOf (split sep s) = seg := by
      rw [e, lastOf_split_append, split_of_not_mem sep seg hs, lastOf_singleton]
    rw [hl]
    exact ⟨hs, Or.inr ⟨h, dir, e⟩⟩
  · have hl : lastOf (split sep s) = s := by
      rw [split_of_not_mem sep s h, lastOf_singleton]
    rw [hl]
    exact ⟨h, Or.inl ⟨h, rfl⟩⟩

theorem lastPart_append (dir seg : Str) (h : '/' ∉ seg) :
    lastPart (dir ++ '/' :: seg) = seg := by
  rw [lastPart, lastOf_split_append, split_of_not_mem _ seg h, lastOf_singleton]

/-! ## Lemmas: the URL match -/

theorem stripLiteral_eq_some (lit s r : Str) : stripLiteral lit s = some r ↔ s = lit ++ r := by
  induction lit generalizing s with
  | nil => simp [stripLiteral, eq_comm]
  | cons p ps ih =>
    cases s with
    | nil => simp [stripLiteral]
    | cons c t =>
      rw [stripLiteral]
      by_cases hc : c = p
      · rw [if_pos hc, ih, hc]
        simp
      · rw [if_neg hc]
        simp [hc]

theorem stripLiteral_append (lit r : Str) : stripLiteral lit (lit ++ r) = some r :=
  (stripLiteral_eq_some lit (lit ++ r) r).mpr rfl

/-- Every text is a run without `/` followed by nothing or by a `/`. -/
theorem slash_run (s : Str) :
    ∃ rest, s = s.takeWhile (fun c => decide (c ≠ '/')) ++ rest ∧
      '/' ∉ s.takeWhile (fun c => decide (c ≠ '/')) ∧ (rest = [] ∨ ∃ r, rest = '/' :: r) := by
  induction s with
  | nil => exact ⟨[], rfl, by simp, Or.inl rfl⟩
  | cons c t ih =>
    by_cases hc : c = '/'
    · refine ⟨c :: t, ?_, ?_, Or.inr ⟨t, by rw [hc]⟩⟩ <;> simp [List.takeWhile, hc]
    · obtain ⟨rest, e, hm, hr⟩ := ih
      refine ⟨rest, ?_, ?_, hr⟩
      · simp only [List.takeWhile, hc, ne_eq, not_false_eq_true, decide_True, List.cons_append]
        exact congrArg _ e
      · simp only [List.takeWhile, hc, ne_eq, not_false_eq_true, decide_True, List.mem_cons]
        rintro (h | h)
        · exact hc h.symm
        · exact hm h

/-- Whatever `[^/]+` followed by `k` returns, `k` returned it for some
non-empty capture without `/`. -/
theorem plusNotSlash_sound {α : Type} (k : Str → Str → Option α) (s acc : Str) (x : α)
    (h : plusNotSlash k acc s = some x) :
    ∃ seg rest, s = seg ++ rest ∧ seg ≠ [] ∧ '/' ∉ seg ∧ k (acc ++ seg) rest = some x := by
  induction s generalizing acc with
  | nil => simp [plusNotSlash] at h
  | cons c t ih =>
    rw [plusNotSlash] at h
    by_cases hc : c = '/'
    · simp [hc] at h
    · rw [if_neg hc] at h
      cases hfirst : plusNotSlash k (acc ++ [c]) t with
      | some y =>
        rw [hfirst] at h
        simp only [Option.orElse] at h
        rw [h] at hfirst
        obtain ⟨seg, rest, e, _, hm, hk⟩ := ih _ hfirst
        refine ⟨c :: seg, rest, by rw [e]; rfl, by simp, ?_, by simpa using hk⟩
        intro m
        rcases List.mem_cons.mp m with e' | m'
        · exact hc e'.symm
        · exact hm m'
      | none =>
        rw [hfirst] at h
        simp only [Option.orElse] at h
        exact ⟨[c], t, rfl, by simp, by simpa using fun e => hc e.symm, h⟩

/-- The greedy capture before a continuation that needs a `/` next: the
whole run without `/`. -/
theorem plusNotSlash_run {α : Type} (k : Str → Str → Option α)
    (hk : ∀ a c r, c ≠ '/' → k a (c :: r) = none) (seg rest acc : Str)
    (hseg : seg ≠ []) (hm : '/' ∉ seg) (hrest : rest = [] ∨ ∃ r, rest = '/' :: r) :
    plusNotSlash k acc (seg ++ rest) = k (acc ++ seg) rest := by
  induction seg generalizing acc with
  | nil => exact absurd rfl hseg
  | cons c t ih =>
    have hc : c ≠ '/' := fun e => hm (by simp [e])
    have ht : '/' ∉ t := fun m => hm (List.mem_cons_of_mem _ m)
    rw [List.cons_append, plusNotSlash, if_neg hc]
    cases t with
    | nil =>
      have hnone : plusNotSlash k (acc ++ [c]) ([] ++ rest) = none := by
        rcases hrest with e | ⟨r, e⟩ <;> simp [e, plusNotSlash]
      rw [hnone]
      rfl
    | cons d u =>
      have hd : d ≠ '/' := fun e => ht (by simp [e])
      rw [ih (acc ++ [c]) (by simp) ht, List.cons_append, hk _ d _ hd]
      simp only [List.append_assoc, List.singleton_append]
      cases k (acc ++ c :: d :: u) rest <;> rfl

/-- The greedy capture of the last group: the whole run without `/`. -/
theorem plusNotSlash_last (owner seg rest acc : Str)
    (hseg : seg ≠ []) (hm : '/' ∉ seg) (hrest : rest = [] ∨ ∃ r, rest = '/' :: r) :
    plusNotSlash (fun repo _ => some (owner, repo)) acc (seg ++ rest) =
      some (owner, acc ++ seg) := by
  induction seg generalizing acc with
  | nil => exact absurd rfl hseg
  | cons c t ih =>
    have hc : c ≠ '/' := fun e => hm (by simp [e])
    have ht : '/' ∉ t := fun m => hm (List.mem_cons_of_mem _ m)
    rw [List.cons_append, plusNotSlash, if_neg hc]
    cases t with
    | nil =>
      have hnone : plusNotSlash (fun repo _ => some (owner, repo)) (acc ++ [c]) ([] ++ rest) =
          (none : Option (Str × Str)) := by
        rcases hrest with e | ⟨r, e⟩ <;> simp [e, plusNotSlash]
      rw [hnone]
      rfl
    | cons d u =>
      rw [ih (acc ++ [c]) (by simp) ht]
      simp [Option.orElse]

/-- The expression anchored at `github.com/<owner>/<repo><rest>`: group 2 is
`repo` extended by `rest` up to its first `/`. -/
theorem matchHere_append (owner repo rest : Str)
    (ho : owner ≠ []) (hos : '/' ∉ owner) (hr : repo ≠ []) (hrs : '/' ∉ repo) :
    matchHere ("github.com/".toList ++ owner ++ '/' :: repo ++ rest) =
      some (owner, repo ++ rest.takeWhile (fun c => decide (c ≠ '/'))) := by
  obtain ⟨tail, e, hm, htail⟩ := slash_run rest
  have hsplit : "github.com/".toList ++ owner ++ '/' :: repo ++ rest =
      "github.com/".toList ++ (owner ++ '/' :: (repo ++ rest)) := by simp
  rw [hsplit, matchHere, stripLiteral_append]
  simp only
  have hk : ∀ (a : Str) (c : Char) (r : Str), c ≠ '/' →
      (match c :: r with
        | '/' :: afterSlash =>
          plusNotSlash (fun repo _ => some (a, repo)) [] afterSlash
        | _ => none) = none := by
    intro a c r hc
    split
    · rename_i heq
      exact absurd (List.cons.inj heq).1 hc
    · rfl
  rw [plusNotSlash_run _ hk owner _ [] ho hos (Or.inr ⟨_, rfl⟩)]
  simp only [List.nil_append]
  have hrepo : repo ++ rest = (repo ++ rest.takeWhile (fun c => decide (c ≠ '/'))) ++ tail := by
    rw [List.append_assoc, ← e]
  have hne : repo ++ rest.takeWhile (fun c => decide (c ≠ '/')) ≠ [] := by
    intro h0
    exact hr (List.append_eq_nil.mp h0).1
  have hnm : '/' ∉ repo ++ rest.takeWhile (fun c => decide (c ≠ '/')) := by
    intro m
    rcases List.mem_append.mp m with m | m
    · exact hrs m
    · exact hm m
  rw [hrepo, plusNotSlash_last owner _ tail [] hne hnm htail]
  rfl

theorem matchHere_sound (s owner repo : Str) (h : matchHere s = some (owner, repo)) :
    ∃ post, s = "github.com/".toList ++ owner ++ '/' :: repo ++ post ∧
      owner ≠ [] ∧ '/' ∉ owner ∧ repo ≠ [] ∧ '/' ∉ repo := by
  rw [matchHere] at h
  split at h
  · simp at h
  · rename_i afterHost hstrip
    rw [stripLiteral_eq_some] at hstrip
    obtain ⟨seg, rest, e, hne, hm, hk⟩ := plusNotSlash_sound _ _ _ _ h
    simp only [List.nil_append] at hk
    split at hk
    · rename_i afterSlash
      obtain ⟨seg2, post, e2, hne2, hm2, hk2⟩ := plusNotSlash_sound _ _ _ _ hk
      simp only [List.nil_append, Option.some.injEq, Prod.mk.injEq] at hk2
      obtain ⟨h1, h2⟩ := hk2
      subst h1 h2
      exact ⟨post, by rw [hstrip, e, e2]; simp, hne, hm, hne2, hm2⟩
    · simp at hk

theorem urlMatch_unfold (s : Str) :
    urlMatch s = (matchHere s).orElse fun _ => urlMatch s.tail := by
  cases s with
  | nil =>
    have h : matchHere [] = none := by decide
    rw [urlMatch, h]
    simp [Option.orElse, urlMatch, h]
  | cons c t => rw [urlMatch]; rfl

theorem matchHere_of_ne (c : Char) (t : Str) (hc : c ≠ 'g') : matchHere (c :: t) = none := by
  have h : stripLiteral "github.com/".toList (c :: t) = none := by
    change stripLiteral ('g' :: "ithub.com/".toList) (c :: t) = none
    rw [stripLiteral, if_neg hc]
  rw [matchHere, h]

theorem urlMatch_of_matchHere (s : Str) (x : Str × Str) (h : matchHere s = some x) :
    urlMatch s = some x := by
  rw [urlMatch_unfold, h]
  rfl

theorem urlMatch_cons_of_none (c : Char) (t : Str) (h : matchHere (c :: t) = none) :
    urlMatch (c :: t) = urlMatch t := by
  rw [urlMatch, h]
  rfl

theorem urlMatch_sound (s owner repo : Str) (h : urlMatch s = some (owner, repo)) :
    HasOwnerRepo s := by
  induction s with
  | nil =>
    rw [urlMatch] at h
    obtain ⟨post, e, rest⟩ := matchHere_sound _ _ _ h
    exact ⟨[], owner, repo, post, e, rest⟩
  | cons c t ih =>
    cases hm : matchHere (c :: t) with
    | some x =>
      rw [urlMatch_of_matchHere _ _ hm] at h
      rw [h] at hm
      obtain ⟨post, e, rest⟩ := matchHere_sound _ _ _ hm
      exact ⟨[], owner, repo, post, e, rest⟩
    | none =>
      rw [urlMatch_cons_of_none _ _ hm] at h
      obtain ⟨pre, o, r, post, e, rest⟩ := ih h
      obtain ⟨h1, h2, h3, h4⟩ := rest
      exact ⟨c :: pre, o, r, post, by rw [e]; simp, h1, h2, h3, h4⟩

theorem urlMatch_complete (s : Str) (h : HasOwnerRepo s) : urlMatch s ≠ none := by
  obtain ⟨pre, owner, repo, post, e, ho, hos, hr, hrs⟩ := h
  subst e
  induction pre with
  | nil =>
    have hm := matchHere_append owner repo post ho hos hr hrs
    rw [List.nil_append, urlMatch_of_matchHere _ _ hm]
    simp
  | cons c t ih =>
    cases hm : matchHere (c :: t ++ "github.com/".toList ++ owner ++ '/' :: repo ++ post) with
    | some x =>
      rw [urlMatch_of_matchHere _ _ hm]
      simp
    | none =>
      have hcons : c :: t ++ "github.com/".toList ++ owner ++ '/' :: repo ++ post =
          c :: (t ++ "github.com/".toList ++ owner ++ '/' :: repo ++ post) := by simp
      rw [hcons] at hm ⊢
      rw [urlMatch_cons_of_none _ _ hm]
      exact ih

theorem urlMatch_eq_none_iff (s : Str) : urlMatch s = none ↔ ¬ HasOwnerRepo s := by
  constructor
  · intro h hs
    exact urlMatch_complete s hs h
  · intro h
    cases hm : urlMatch s with
    | none => rfl
    | some x => exact absurd (urlMatch_sound s x.1 x.2 hm) h

/-! ## Lemmas: `Promise.all` -/

theorem earliestRejection_eq_none {α : Type} (settle : Nat → Nat) (i : Nat)
    (ps : List (Except JsError α)) :
    earliestRejection settle i ps = none ↔ ∀ p ∈ ps, ∃ a, p = .ok a := by
  induction ps generalizing i with
  | nil => simp [earliestRejection]
  | cons p rest ih =>
    cases p with
    | ok a =>
      rw [earliestRejection, ih]
      simp
    | error e =>
      rw [earliestRejection]
      constructor
      · intro h
        split at h
        · simp at h
        · split at h <;> simp at h
      · intro h
        obtain ⟨a, ha⟩ := h _ (List.mem_cons_self _ _)
        simp at ha

theorem promiseAll_eq_ok {α : Type} (settle : Nat → Nat) (ps : List (Except JsError α))
    (l : List α) :
    promiseAll settle ps = .ok l ↔ (∀ p ∈ ps, ∃ a, p = .ok a) ∧ l = fulfilled ps := by
  rw [promiseAll]
  cases h : earliestRejection settle 0 ps with
  | none =>
    have := (earliestRejection_eq_none settle 0 ps).mp h
    simp only [Except.ok.injEq]
    exact ⟨fun e => ⟨this, e.symm⟩, fun e => e.2.symm⟩
  | some te =>
    have hn : ¬ ∀ p ∈ ps, ∃ a, p = .ok a := by
      intro hall
      rw [(earliestRejection_eq_none settle 0 ps).mpr hall] at h
      simp at h
    simp [hn]

theorem earliestRejection_mem {α : Type} (settle : Nat → Nat) (i : Nat)
    (ps : List (Except JsError α)) (t : Nat) (e : JsError)
    (h : earliestRejection settle i ps = some (t, e)) : .error e ∈ ps := by
  induction ps generalizing i t e with
  | nil => simp [earliestRejection] at h
  | cons p rest ih =>
    cases p with
    | ok a =>
      rw [earliestRejection] at h
      exact List.mem_cons_of_mem _ (ih _ _ _ h)
    | error e0 =>
      rw [earliestRejection] at h
      split at h
      · simp only [Option.some.injEq, Prod.mk.injEq] at h
        rw [h.2]
        exact List.mem_cons_self _ _
      · rename_i t2 e2 hrest
        split at h
        · simp only [Option.some.injEq, Prod.mk.injEq] at h
          rw [← h.2]
          exact List.mem_cons_of_mem _ (ih _ _ _ hrest)
        · simp only [Option.some.injEq, Prod.mk.injEq] at h
          rw [h.2]
          exact List.mem_cons_self _ _

theorem promiseAll_eq_error {α : Type} (settle : Nat → Nat) (ps : List (Except JsError α))
    (e : JsError) (h : promiseAll settle ps = .error e) : .error e ∈ ps := by
  rw [promiseAll] at h
  split at h
  · rename_i t e2 hr
    simp only [Except.error.injEq] at h
    rw [← h]
    exact earliestRejection_mem settle 0 ps t e2 hr
  · simp at h

theorem promiseAll_of_mem_error {α : Type} (settle : Nat → Nat) (ps : List (Except JsError α))
    (e : JsError) (h : .error e ∈ ps) : ∃ e2, promiseAll settle ps = .error e2 := by
  cases hp : promiseAll settle ps with
  | error e2 => exact ⟨e2, rfl⟩
  | ok l =>
    obtain ⟨a, ha⟩ := ((promiseAll_eq_ok settle ps l).mp hp).1 _ h
    simp at ha

/-! ## Lemmas: the pipeline -/

theorem truthy_eq_some (o : Option Str) (b : Str) :
    truthy o = some b ↔ o = some b ∧ b ≠ [] := by
  cases o with
  | none => simp [truthy]
  | some v =>
    cases v with
    | nil =>
      simp only [truthy, Option.some.injEq]
      constructor
      · intro h; simp at h
      · rintro ⟨h, hb⟩; exact absurd h.symm hb
    | cons c t =>
      simp only [truthy, Option.some.injEq]
      constructor
      · intro h; exact ⟨h, by rw [← h]; simp⟩
      · intro h; exact h.1

theorem truthy_eq_none (o : Option Str) : truthy o = none ↔ o = none ∨ o = some [] := by
  cases o with
  | none => simp [truthy]
  | some v => cases v <;> simp [truthy]

theorem fetchContent_ok (http : Http) (owner repo branch : Str) (file : TreeEntry)
    (rec : ContentRecord) :
    fetchContent http owner repo branch file = .ok rec ↔
      ∃ r, http (contentUrl owner repo branch file.path) = .ok r ∧
        rec = ⟨r.data.value, file.path⟩ := by
  rw [fetchContent]
  cases h : http (contentUrl owner repo branch file.path) with
  | error e => simp
  | ok r => simp [eq_comm]

/-- The `try` block after three successful API responses. -/
theorem tryBlock_resolved (http : Http) (settle : Nat → Nat) (owner repo branch sha : Str)
    (tree : List TreeEntry) (h : Resolved http owner repo branch sha tree) :
    tryBlock http settle owner repo =
      if (filesToFetch tree).length = 0 then
        (.error ⟨"No relevant code or text files found in this repository.".toList, none⟩,
          [repoMetaUrl owner repo, branchInfoUrl owner repo branch, treeUrl owner repo sha])
      else
        (.ok (promiseAll settle ((filesToFetch tree).map (fetchContent http owner repo branch))),
          [repoMetaUrl owner repo, branchInfoUrl owner repo branch, treeUrl owner repo sha] ++
            (filesToFetch tree).map fun file => contentUrl owner repo branch file.path) := by
  obtain ⟨r1, r2, r3, h1, hb, hbn, h2, hs, hsn, h3, ht⟩ := h
  have tb := (truthy_eq_some _ _).mpr ⟨hb, hbn⟩
  have ts := (truthy_eq_some _ _).mpr ⟨hs, hsn⟩
  simp only [tryBlock, h1, tb, h2, ts, h3, ht]

/-- The `try` block reaches its `return` only after three successful API
responses and a non-empty selection. -/
theorem tryBlock_ok (http : Http) (settle : Nat → Nat) (owner repo : Str)
    (p : Except JsError (List ContentRecord)) (log : List Str)
    (h : tryBlock http settle owner repo = (.ok p, log)) :
    ∃ branch sha tree, Resolved http owner repo branch sha tree ∧ filesToFetch tree ≠ [] ∧
      p = promiseAll settle ((filesToFetch tree).map (fetchContent http owner repo branch)) := by
  simp only [tryBlock] at h
  split at h
  · simp at h
  · rename_i r1 h1
    split at h
    · simp at h
    · rename_i branch tb
      split at h
      · simp at h
      · rename_i r2 h2
        split at h
        · simp at h
        · rename_i sha ts
          split at h
          · simp at h
          · rename_i r3 h3
            split at h
            · simp at h
            · rename_i tree ht
              split at h
              · simp at h
              · rename_i hlen
                obtain ⟨hb, hbn⟩ := (truthy_eq_some _ _).mp tb
                obtain ⟨hs, hsn⟩ := (truthy_eq_some _ _).mp ts
                refine ⟨branch, sha, tree, ⟨r1, r2, r3, h1, hb, hbn, h2, hs, hsn, h3, ht⟩, ?_, ?_⟩
                · intro e
                  exact hlen (by rw [e]; rfl)
                · simp only [Prod.mk.injEq, Except.ok.injEq] at h
                  exact h.1.symm

/-- Every failure of a stage inside the `try` block is what the block throws. -/
theorem tryBlock_stageFailure (http : Http) (settle : Nat → Nat) (owner repo : Str)
    (e : JsError) (h : StageFailure http owner repo e) :
    (tryBlock http settle owner repo).1 = .error e := by
  cases h with
  | repoRequest _ h1 => simp only [tryBlock, h1]
  | noBranch r1 h1 hb =>
    have tb := (truthy_eq_none _).mpr hb
    simp only [tryBlock, h1, tb]
  | branchRequest r1 branch _ h1 hb hbn h2 =>
    have tb := (truthy_eq_some _ _).mpr ⟨hb, hbn⟩
    simp only [tryBlock, h1, tb, h2]
  | noSha r1 r2 branch h1 hb hbn h2 hs =>
    have tb := (truthy_eq_some _ _).mpr ⟨hb, hbn⟩
    have ts := (truthy_eq_none _).mpr hs
    simp only [tryBlock, h1, tb, h2, ts]
  | treeRequest r1 r2 branch sha _ h1 hb hbn h2 hs hsn h3 =>
    have tb := (truthy_eq_some _ _).mpr ⟨hb, hbn⟩
    have ts := (truthy_eq_some _ _).mpr ⟨hs, hsn⟩
    simp only [tryBlock, h1, tb, h2, ts, h3]
  | noTree r1 r2 r3 branch sha h1 hb hbn h2 hs hsn h3 ht =>
    have tb := (truthy_eq_some _ _).mpr ⟨hb, hbn⟩
    have ts := (truthy_eq_some _ _).mpr ⟨hs, hsn⟩
    simp only [tryBlock, h1, tb, h2, ts, h3, ht]
  | noFiles branch sha tree hres hnil =>
    rw [tryBlock_resolved http settle owner repo branch sha tree hres, hnil]
    rfl

theorem getRepoContent_of_match (http : Http) (settle : Nat → Nat) (url owner repo : Str)
    (h : urlMatch url = some (owner, repo)) :
    getRepoContent http settle url =
      match tryBlock http settle owner repo with
      | (.error error, log) => ⟨.error (wrapError error), log⟩
      | (.ok promise, log) => ⟨promise, log⟩ := by
  rw [getRepoContent, h]

/-- After three successful API responses and a non-empty selection the call
settles as `Promise.all` over the fetches does. -/
theorem getRepoContent_resolved (http : Http) (settle : Nat → Nat)
    (url owner repo branch sha : Str) (tree : List TreeEntry)
    (hurl : urlMatch url = some (owner, repo))
    (hres : Resolved http owner repo branch sha tree) (hne : filesToFetch tree ≠ []) :
    getRepoContent http settle url =
      ⟨promiseAll settle ((filesToFetch tree).map (fetchContent http owner repo branch)),
        [repoMetaUrl owner repo, branchInfoUrl owner repo branch, treeUrl owner repo sha] ++
          (filesToFetch tree).map fun file => contentUrl owner repo branch file.path⟩ := by
  have hlen : ¬ (filesToFetch tree).length = 0 := fun h => hne (List.length_eq_zero.mp h)
  rw [getRepoContent_of_match http settle url owner repo hurl,
    tryBlock_resolved http settle owner repo branch sha tree hres, if_neg hlen]

/-- A call that fulfils went through three successful API responses and a
non-empty selection, and `Promise.all` over the fetches fulfilled. -/
theorem getRepoContent_ok (http : Http) (settle : Nat → Nat) (url : Str)
    (l : List ContentRecord) (h : (getRepoContent http settle url).result = .ok l) :
    ∃ owner repo branch sha tree,
      urlMatch url = some (owner, repo) ∧ Resolved http owner repo branch sha tree ∧
      filesToFetch tree ≠ [] ∧
      promiseAll settle ((filesToFetch tree).map (fetchContent http owner repo branch)) =
        .ok l := by
  cases hm : urlMatch url with
  | none =>
    rw [getRepoContent, hm] at h
    simp at h
  | some x =>
    obtain ⟨owner, repo⟩ := x
    rw [getRepoContent_of_match http settle url owner repo hm] at h
    cases ht : tryBlock http settle owner repo with
    | mk first log =>
      rw [ht] at h
      cases first with
      | error e => simp at h
      | ok p =>
        obtain ⟨branch, sha, tree, hres, hne, hp⟩ := tryBlock_ok http settle owner repo p log ht
        simp only at h
        exact ⟨owner, repo, branch, sha, tree, rfl, hres, hne, by rw [← hp]; exact h⟩

/-- A fulfilled `Promise.all` over the fetches: one record per selected file,
in order, each with the file's path and the `data` of the file's response. -/
theorem records_aligned (http : Http) (settle : Nat → Nat) (owner repo branch : Str)
    (files : List TreeEntry) (l : List ContentRecord)
    (h : promiseAll settle (files.map (fetchContent http owner repo branch)) = .ok l) :
    List.Forall₂
      (fun (rec : ContentRecord) (file : TreeEntry) =>
        rec.metadata_source = file.path ∧
          ∃ r, http (contentUrl owner repo branch file.path) = .ok r ∧
            rec.pageContent = r.data.value)
      l files := by
  obtain ⟨hall, hl⟩ := (promiseAll_eq_ok settle _ l).mp h
  subst hl
  clear h
  induction files with
  | nil => exact List.Forall₂.nil
  | cons file rest ih =>
    obtain ⟨rec, hrec⟩ := hall (fetchContent http owner repo branch file) (by simp)
    obtain ⟨r, hr, e⟩ := (fetchContent_ok http owner repo branch file rec).mp hrec
    rw [List.map_cons, hrec, fulfilled]
    refine List.Forall₂.cons ⟨by rw [e], r, hr, by rw [e]⟩ (ih ?_)
    intro p hp
    exact hall p (by rw [List.map_cons]; exact List.mem_cons_of_mem _ hp)

/-! ## Lemmas: the extension key -/

theorem extensionKey_of_dot (path stem ext : Str)
    (h : lastPart path = stem ++ '.' :: ext) (hext : '.' ∉ ext) :
    extensionKey path = '.' :: ext := by
  have hin : includes (lastPart path) ['.'] = true := by
    rw [includes_singleton, h]
    simp
  rw [extensionKey, if_pos hin, h, lastOf_split_append, split_of_not_mem _ ext hext,
    lastOf_singleton]

theorem extensionKey_of_no_dot (path : Str) (h : '.' ∉ lastPart path) :
    extensionKey path = lastPart path := by
  have hin : ¬ includes (lastPart path) ['.'] = true := by
    rw [includes_singleton]
    exact h
  rw [extensionKey, if_neg hin]

/-- The shape of every extension key: no `.` at all, or one leading `.` only. -/
theorem extensionKey_shape (path : Str) :
    '.' ∉ extensionKey path ∨ ∃ ext, extensionKey path = '.' :: ext ∧ '.' ∉ ext := by
  by_cases h : '.' ∈ lastPart path
  · obtain ⟨stem, ext, e, hext⟩ := exists_last_occurrence '.' _ h
    exact Or.inr ⟨ext, extensionKey_of_dot path stem ext e hext, hext⟩
  · rw [extensionKey_of_no_dot path h]
    exact Or.inl h

theorem extensionKey_ne_env_example (path : Str) :
    extensionKey path ≠ ".env.example".toList := by
  intro h
  rcases extensionKey_shape path with hn | ⟨ext, e, hext⟩
  · rw [h] at hn
    exact hn (by decide)
  · rw [h] at e
    have : ext = "env.example".toList := (List.cons.inj e).2.symm
    rw [this] at hext
    exact hext (by decide)

theorem contains_iff_mem (allow : List Str) (k : Str) : allow.contains k = true ↔ k ∈ allow := by
  simp

theorem isExcluded_iff (path : Str) :
    isExcluded path = true ↔
      "node_modules".toList <:+: path ∨ "dist".toList <:+: path ∨ "build".toList <:+: path := by
  rw [isExcluded, Bool.or_eq_true, Bool.or_eq_true, includes_iff, includes_iff, includes_iff,
    or_assoc]

theorem isRelevantFile_iff (path : Str) :
    isRelevantFile path = true ↔
      ¬ "node_modules".toList <:+: path ∧ ¬ "dist".toList <:+: path ∧
        ¬ "build".toList <:+: path ∧ extensionKey path ∈ RELEVANT_EXTENSIONS := by
  rw [isRelevantFile, isRelevantFileIn]
  by_cases h : isExcluded path = true
  · rw [if_pos h]
    have hx := (isExcluded_iff path).mp h
    constructor
    · intro hf
      exact absurd hf (by decide)
    · rintro ⟨a, b, c, _⟩
      rcases hx with hx | hx | hx
      · exact absurd hx a
      · exact absurd hx b
      · exact absurd hx c
  · rw [if_neg h, contains_iff_mem]
    have hx := fun hh => h ((isExcluded_iff path).mpr hh)
    constructor
    · intro hm
      exact ⟨fun a => hx (Or.inl a), fun b => hx (Or.inr (Or.inl b)),
        fun c => hx (Or.inr (Or.inr c)), hm⟩
    · intro hm
      exact hm.2.2.2

/-! ## The claims -/

/-- C1: the selection before the cap is the tree filtered, in original order,
by: type is `blob`, the path contains none of `node_modules`, `dist`, `build`
anywhere, and the extension key is in the allow-list.  For the blob paths
`src/a.py`, `node_modules/x.js`, `dist/y.js`, `README.md`, `LICENSE`,
`Dockerfile` the selection is `src/a.py`, `README.md`, `Dockerfile`, and
`src/distance/util.py` is not selected. -/
theorem relevantBlobs_spec :
    (∃ keep : TreeEntry → Bool,
      (∀ f, keep f = true ↔
        f.type = "blob".toList ∧ ¬ "node_modules".toList <:+: f.path ∧
          ¬ "dist".toList <:+: f.path ∧ ¬ "build".toList <:+: f.path ∧
          extensionKey f.path ∈ RELEVANT_EXTENSIONS) ∧
      ∀ tree, relevantBlobs tree = tree.filter keep) ∧
    (relevantBlobs
        (["src/a.py".toList, "node_modules/x.js".toList, "dist/y.js".toList,
          "README.md".toList, "LICENSE".toList, "Dockerfile".toList].map
          fun p => ⟨p, "blob".toList⟩)).map TreeEntry.path =
      ["src/a.py".toList, "README.md".toList, "Dockerfile".toList] ∧
    relevantBlobs [⟨"src/distance/util.py".toList, "blob".toList⟩] = [] := by
  refine ⟨⟨fun file => decide (file.type = "blob".toList) && isRelevantFile file.path,
    ?_, fun tree => rfl⟩, by decide, by decide⟩
  intro f
  rw [Bool.and_eq_true, decide_eq_true_eq, isRelevantFile_iff]

/-- C2: the file selection is the first `min n 100` entries, in order, of the
`n` entries that pass the blob-and-relevance filter; its length is `min n 100`,
and when `n` is 150 it is the first 100 of them. -/
theorem filesToFetch_spec (tree : List TreeEntry) :
    filesToFetch tree = (relevantBlobs tree).take (min (relevantBlobs tree).length 100) ∧
    (filesToFetch tree).length = min (relevantBlobs tree).length 100 ∧
    ((relevantBlobs tree).length = 150 →
      (filesToFetch tree).length = 100 ∧
        ∃ tail, tail.length = 50 ∧ relevantBlobs tree = filesToFetch tree ++ tail) := by
  refine ⟨?_, ?_, ?_⟩
  · rw [filesToFetch]
    by_cases h : (relevantBlobs tree).length ≤ 100
    · rw [Nat.min_eq_left h, List.take_of_length_le h, List.take_of_length_le (le_refl _)]
    · rw [Nat.min_eq_right (by omega)]
  · rw [filesToFetch, List.length_take, Nat.min_comm]
  · intro h
    refine ⟨by rw [filesToFetch, List.length_take, h]; rfl, (relevantBlobs tree).drop 100, ?_, ?_⟩
    · rw [List.length_drop, h]
    · rw [filesToFetch, List.take_append_drop]

/-- C3: with `seg` the final `/`-separated segment of the path, the extension
key is the part of `seg` from its last `.` to its end when `seg` contains a
`.`, and `seg` itself otherwise; `a/b/Dockerfile` gives `Dockerfile`,
`a/b.c.tar` gives `.tar`, `a/.env.example` gives `.example`. -/
theorem extensionKey_spec :
    (∀ path : Str, ∃ seg,
      '/' ∉ seg ∧ (path = seg ∨ ∃ dir, path = dir ++ '/' :: seg) ∧
      (('.' ∈ seg ∧ ∃ stem ext, seg = stem ++ '.' :: ext ∧ '.' ∉ ext ∧
          extensionKey path = '.' :: ext) ∨
        ('.' ∉ seg ∧ extensionKey path = seg))) ∧
    extensionKey "a/b/Dockerfile".toList = "Dockerfile".toList ∧
    extensionKey "a/b.c.tar".toList = ".tar".toList ∧
    extensionKey "a/.env.example".toList = ".example".toList := by
  refine ⟨fun path => ⟨lastPart path, ?_, ?_, ?_⟩, by decide, by decide, by decide⟩
  · exact (lastOf_split_spec '/' path).1
  · rcases (lastOf_split_spec '/' path).2 with ⟨_, h⟩ | ⟨_, dir, h⟩
    · exact Or.inl h.symm
    · exact Or.inr ⟨dir, h⟩
  · by_cases h : '.' ∈ lastPart path
    · obtain ⟨stem, ext, e, hext⟩ := exists_last_occurrence '.' _ h
      exact Or.inl ⟨h, stem, ext, e, hext, extensionKey_of_dot path stem ext e hext⟩
    · exact Or.inr ⟨h, extensionKey_of_no_dot path h⟩

/-- C10: no path has the extension key `.env.example` (a key has no `.`, or
is a `.` followed by text without `.`), so `isRelevantFile` gives on every
path what it gives with that allow-list entry removed, and a path whose final
segment is `.env.example` has the key `.example` and is rejected. -/
theorem env_example_unreachable :
    (∀ path : Str, extensionKey path ≠ ".env.example".toList ∧
      ('.' ∉ extensionKey path ∨ ∃ ext, extensionKey path = '.' :: ext ∧ '.' ∉ ext)) ∧
    (∀ path : Str, isRelevantFile path =
      isRelevantFileIn (RELEVANT_EXTENSIONS.erase ".env.example".toList) path) ∧
    (extensionKey ".env.example".toList = ".example".toList ∧
      isRelevantFile ".env.example".toList = false) ∧
    (∀ dir : Str, extensionKey (dir ++ "/.env.example".toList) = ".example".toList ∧
      isRelevantFile (dir ++ "/.env.example".toList) = false) := by
  refine ⟨fun path => ⟨extensionKey_ne_env_example path, extensionKey_shape path⟩, ?_,
    ⟨by decide, by decide⟩, ?_⟩
  · intro path
    have hne := extensionKey_ne_env_example path
    have herase : RELEVANT_EXTENSIONS.erase ".env.example".toList =
        RELEVANT_EXTENSIONS.filter (fun k => decide (k ≠ ".env.example".toList)) := by decide
    rw [isRelevantFile, isRelevantFileIn, isRelevantFileIn, herase]
    split
    · rfl
    · rw [Bool.eq_iff_iff]
      rw [contains_iff_mem, contains_iff_mem, List.mem_filter, decide_eq_true_eq]
      exact ⟨fun h => ⟨h, hne⟩, fun h => h.1⟩
  · intro dir
    have hkey : extensionKey (dir ++ "/.env.example".toList) = ".example".toList := by
      have hl : lastPart (dir ++ "/.env.example".toList) = ".env.example".toList :=
        lastPart_append dir ".env.example".toList (by decide)
      exact extensionKey_of_dot _ ".env".toList "example".toList hl (by decide)
    refine ⟨hkey, ?_⟩
    rw [isRelevantFile, isRelevantFileIn, hkey]
    split
    · rfl
    · decide

/-- C4, as the code has it: for `https://github.com/<owner>/<repo><rest>` with
`owner` and `repo` non-empty and without `/`, the match yields `owner` and, as
repo, `repo` followed by the characters of `rest` before its first `/`; so
exactly `(owner, repo)` when `rest` is empty or starts with `/`, while a query
or fragment right after `repo` is captured as part of the repo. -/
theorem urlMatch_github (owner repo rest : Str)
    (ho : owner ≠ []) (hos : '/' ∉ owner) (hr : repo ≠ []) (hrs : '/' ∉ repo) :
    urlMatch ("https://github.com/".toList ++ owner ++ '/' :: repo ++ rest) =
        some (owner, repo ++ rest.takeWhile (fun c => decide (c ≠ '/'))) ∧
      ((rest = [] ∨ ∃ r, rest = '/' :: r) →
        urlMatch ("https://github.com/".toList ++ owner ++ '/' :: repo ++ rest) =
          some (owner, repo)) := by
  have hmain : urlMatch ("https://github.com/".toList ++ owner ++ '/' :: repo ++ rest) =
      some (owner, repo ++ rest.takeWhile (fun c => decide (c ≠ '/'))) := by
    change urlMatch ('h' :: 't' :: 't' :: 'p' :: 's' :: ':' :: '/' :: '/' ::
      ("github.com/".toList ++ owner ++ '/' :: repo ++ rest)) = _
    rw [urlMatch_cons_of_none _ _ (matchHere_of_ne _ _ (by decide)),
      urlMatch_cons_of_none _ _ (matchHere_of_ne _ _ (by decide)),
      urlMatch_cons_of_none _ _ (matchHere_of_ne _ _ (by decide)),
      urlMatch_cons_of_none _ _ (matchHere_of_ne _ _ (by decide)),
      urlMatch_cons_of_none _ _ (matchHere_of_ne _ _ (by decide)),
      urlMatch_cons_of_none _ _ (matchHere_of_ne _ _ (by decide)),
      urlMatch_cons_of_none _ _ (matchHere_of_ne _ _ (by decide)),
      urlMatch_cons_of_none _ _ (matchHere_of_ne _ _ (by decide))]
    exact urlMatch_of_matchHere _ _ (matchHere_append owner repo rest ho hos hr hrs)
  refine ⟨hmain, ?_⟩
  intro hrest
  rw [hmain]
  rcases hrest with e | ⟨r, e⟩ <;> simp [e, List.takeWhile]

/-- C4 witness: `https://github.com/octocat/hello/tree/main`. -/
theorem urlMatch_github_witness :
    urlMatch "https://github.com/octocat/hello/tree/main".toList =
        some ("octocat".toList, "hello".toList ++
          "/tree/main".toList.takeWhile (fun c => decide (c ≠ '/'))) ∧
      (("/tree/main".toList = [] ∨ ∃ r, "/tree/main".toList = '/' :: r) →
        urlMatch "https://github.com/octocat/hello/tree/main".toList =
          some ("octocat".toList, "hello".toList)) :=
  urlMatch_github "octocat".toList "hello".toList "/tree/main".toList
    (by decide) (by decide) (by decide) (by decide)

/-- C4 as stated fails: for `https://github.com/octocat/hello?tab=readme` the
captured repo is `hello?tab=readme`, not `hello`; a fragment likewise. -/
theorem urlMatch_query_kept :
    urlMatch "https://github.com/octocat/hello?tab=readme".toList =
        some ("octocat".toList, "hello?tab=readme".toList) ∧
      urlMatch "https://github.com/octocat/hello#start".toList =
        some ("octocat".toList, "hello#start".toList) ∧
      ¬ ∀ owner repo rest : Str, owner ≠ [] → repo ≠ [] →
        (∀ c ∈ owner ++ repo, c ≠ '/' ∧ c ≠ '?' ∧ c ≠ '#') →
        (rest = [] ∨ ∃ c r, rest = c :: r ∧ (c = '/' ∨ c = '?' ∨ c = '#')) →
        urlMatch ("https://github.com/".toList ++ owner ++ '/' :: repo ++ rest) =
          some (owner, repo) := by
  refine ⟨by decide, by decide, ?_⟩
  intro h
  have h1 := h "octocat".toList "hello".toList "?tab=readme".toList (by decide) (by decide)
    (by decide) (Or.inr ⟨'?', "tab=readme".toList, rfl, Or.inr (Or.inl rfl)⟩)
  revert h1
  decide

/-- C5: an input that does not contain `github.com/`, a non-empty owner
segment, a `/` and a non-empty repo segment makes `getRepoContent` fail with
the invalid-URL error, its message exactly as written at line 51 (it does not
start with the orchestrator's fixed text), and no request is issued. -/
theorem invalid_url_rejected (http : Http) (settle : Nat → Nat) (url : Str)
    (h : ¬ HasOwnerRepo url) :
    getRepoContent http settle url =
        ⟨.error ⟨"Invalid GitHub URL format. Use https://github.com/owner/repo".toList, none⟩,
          []⟩ ∧
      (getRepoContent http settle url).requests = [] ∧
      ¬ "Failed to fetch repository content:".toList <+:
        "Invalid GitHub URL format. Use https://github.com/owner/repo".toList := by
  have hm := (urlMatch_eq_none_iff url).mpr h
  have hrun : getRepoContent http settle url = ⟨.error invalidUrlError, []⟩ := by
    rw [getRepoContent, hm]
  refine ⟨hrun, by rw [hrun], by decide⟩

/-- C5 witness: `https://gitlab.com/a/b`. -/
theorem invalid_url_rejected_witness :
    ¬ HasOwnerRepo "https://gitlab.com/a/b".toList ∧
      getRepoContent (sampleHttp []) (fun _ => 0) "https://gitlab.com/a/b".toList =
        ⟨.error ⟨"Invalid GitHub URL format. Use https://github.com/owner/repo".toList, none⟩,
          []⟩ :=
  ⟨(urlMatch_eq_none_iff _).mp (by decide),
    (invalid_url_rejected (sampleHttp []) (fun _ => 0) "https://gitlab.com/a/b".toList
      ((urlMatch_eq_none_iff _).mp (by decide))).1⟩

/-- C6: for a URL that matches and successful repository-metadata, branch and
tree responses in which no tree entry passes the blob-and-relevance filter,
`getRepoContent` fails with the no-relevant-files error, having issued exactly
the three API requests and none to the raw-content host; and no call of
`getRepoContent` ever returns an empty list. -/
theorem no_relevant_files (http : Http) (settle : Nat → Nat)
    (url owner repo branch sha : Str) (tree : List TreeEntry)
    (hurl : urlMatch url = some (owner, repo))
    (hres : Resolved http owner repo branch sha tree)
    (hnone : ∀ f ∈ tree, ¬ (f.type = "blob".toList ∧ isRelevantFile f.path = true)) :
    getRepoContent http settle url =
        ⟨.error
            ⟨("Failed to fetch repository content:  " ++
              "No relevant code or text files found in this repository.").toList, none⟩,
          [repoMetaUrl owner repo, branchInfoUrl owner repo branch, treeUrl owner repo sha]⟩ ∧
      (∀ u ∈ (getRepoContent http settle url).requests,
        "https://api.github.com/".toList <+: u ∧
          ¬ "https://raw.githubusercontent.com/".toList <+: u) ∧
      ∀ (http2 : Http) (settle2 : Nat → Nat) (url2 : Str),
        (getRepoContent http2 settle2 url2).result ≠ .ok [] := by
  have hsel : filesToFetch tree = [] := by
    rw [filesToFetch, relevantBlobs, List.filter_eq_nil_iff.mpr, List.take_nil]
    intro f hf
    rw [Bool.and_eq_true, decide_eq_true_eq]
    exact hnone f hf
  have hrun : getRepoContent http settle url =
      ⟨.error
          ⟨("Failed to fetch repository content:  " ++
            "No relevant code or text files found in this repository.").toList, none⟩,
        [repoMetaUrl owner repo, branchInfoUrl owner repo branch, treeUrl owner repo sha]⟩ := by
    rw [getRepoContent_of_match http settle url owner repo hurl,
      tryBlock_resolved http settle owner repo branch sha tree hres, hsel]
    rfl
  refine ⟨hrun, ?_, ?_⟩
  · rw [hrun]
    intro u hu
    have hraw : ∀ t : Str, ¬ "https://raw.githubusercontent.com/".toList <+:
        "https://api.github.com/repos/".toList ++ t := by
      rintro t ⟨w, hw⟩
      have h9 : "https://r".toList = "https://a".toList := congrArg (List.take 9) hw
      exact absurd h9 (by decide)
    have hapi : ∀ t : Str, "https://api.github.com/".toList <+:
        "https://api.github.com/repos/".toList ++ t :=
      fun t => ⟨"repos/".toList ++ t, rfl⟩
    simp only [List.mem_cons, List.mem_singleton, List.not_mem_nil, or_false] at hu
    rcases hu with e | e | e
    · rw [e, repoMetaUrl, List.append_assoc, List.append_assoc]
      exact ⟨hapi _, hraw _⟩
    · rw [e, branchInfoUrl, List.append_assoc, List.append_assoc, List.append_assoc,
        List.append_assoc]
      exact ⟨hapi _, hraw _⟩
    · rw [e, treeUrl, List.append_assoc, List.append_assoc, List.append_assoc,
        List.append_assoc, List.append_assoc]
      exact ⟨hapi _, hraw _⟩
  · intro http2 settle2 url2 hok
    obtain ⟨o, r, b, s, t, _, _, hne, hp⟩ := getRepoContent_ok http2 settle2 url2 [] hok
    have hall := records_aligned http2 settle2 o r b (filesToFetch t) [] hp
    exact hne (List.forall₂_nil_left_iff.mp hall)

/-- C6 witness: the repository `o/r` whose tree holds only `LICENSE` and a
directory. -/
theorem no_relevant_files_witness :
    urlMatch "https://github.com/o/r".toList = some ("o".toList, "r".toList) ∧
      getRepoContent
          (sampleHttp [⟨"LICENSE".toList, "blob".toList⟩, ⟨"src".toList, "tree".toList⟩])
          (fun _ => 0) "https://github.com/o/r".toList =
        ⟨.error
            ⟨("Failed to fetch repository content:  " ++
              "No relevant code or text files found in this repository.").toList, none⟩,
          [repoMetaUrl "o".toList "r".toList,
            branchInfoUrl "o".toList "r".toList "main".toList,
            treeUrl "o".toList "r".toList "abc".toList]⟩ :=
  ⟨by decide,
    (no_relevant_files
      (sampleHttp [⟨"LICENSE".toList, "blob".toList⟩, ⟨"src".toList, "tree".toList⟩])
      (fun _ => 0) "https://github.com/o/r".toList "o".toList "r".toList "main".toList
      "abc".toList [⟨"LICENSE".toList, "blob".toList⟩, ⟨"src".toList, "tree".toList⟩]
      (by decide)
      ⟨_, _, _, by rfl, by rfl, by decide, by rfl, by rfl, by decide, by rfl, by rfl⟩
      (by decide)).1⟩

/-- C7: once the selection is made, if the fetch of at least one selected file
fails then `getRepoContent` fails, with the rejection of one of the fetches,
and returns no list; it returns a list only when every selected file's fetch
succeeded, and then one record per selected file. -/
theorem fetch_failure_fails (http : Http) (settle : Nat → Nat)
    (url owner repo branch sha : Str) (tree : List TreeEntry)
    (hurl : urlMatch url = some (owner, repo))
    (hres : Resolved http owner repo branch sha tree) :
    (∀ file ∈ filesToFetch tree, ∀ e,
      http (contentUrl owner repo branch file.path) = .error e →
      ∃ e2, (getRepoContent http settle url).result = .error e2 ∧
        ∃ file2 ∈ filesToFetch tree,
          http (contentUrl owner repo branch file2.path) = .error e2) ∧
    (∀ l, (getRepoContent http settle url).result = .ok l →
      (∀ file ∈ filesToFetch tree,
        ∃ r, http (contentUrl owner repo branch file.path) = .ok r) ∧
      l.length = (filesToFetch tree).length) := by
  constructor
  · intro file hfile e he
    have hne : filesToFetch tree ≠ [] := List.ne_nil_of_mem hfile
    rw [getRepoContent_resolved http settle url owner repo branch sha tree hurl hres hne]
    have hmem : .error e ∈ (filesToFetch tree).map (fetchContent http owner repo branch) := by
      refine List.mem_map.mpr ⟨file, hfile, ?_⟩
      rw [fetchContent, he]
    obtain ⟨e2, h2⟩ := promiseAll_of_mem_error settle _ e hmem
    refine ⟨e2, h2, ?_⟩
    obtain ⟨file2, hf2, hfetch⟩ := List.mem_map.mp (promiseAll_eq_error settle _ e2 h2)
    refine ⟨file2, hf2, ?_⟩
    rw [fetchContent] at hfetch
    split at hfetch
    · rename_i e3 h3
      simp only [Except.error.injEq] at hfetch
      rw [h3, hfetch]
    · simp at hfetch
  · intro l hl
    by_cases hne : filesToFetch tree = []
    · have hlen : (filesToFetch tree).length = 0 := by rw [hne]; rfl
      rw [getRepoContent_of_match http settle url owner repo hurl,
        tryBlock_resolved http settle owner repo branch sha tree hres, if_pos hlen] at hl
      simp at hl
    · rw [getRepoContent_resolved http settle url owner repo branch sha tree hurl hres hne] at hl
      have hall := records_aligned http settle owner repo branch (filesToFetch tree) l hl
      refine ⟨?_, hall.length_eq⟩
      intro file hfile
      obtain ⟨hok, _⟩ := (promiseAll_eq_ok settle _ l).mp hl
      obtain ⟨rec, hrec⟩ := hok _ (List.mem_map.mpr ⟨file, hfile, rfl⟩)
      obtain ⟨r, hr, _⟩ := (fetchContent_ok http owner repo branch file rec).mp hrec
      exact ⟨r, hr⟩

/-- C7 witness: in `o/r` the fetch of `README.md` succeeds and the fetch of
`src/a.py` fails; the call fails. -/
theorem fetch_failure_fails_witness :
    urlMatch "https://github.com/o/r".toList = some ("o".toList, "r".toList) ∧
      ∃ e2,
        (getRepoContent
          (sampleHttp [⟨"README.md".toList, "blob".toList⟩, ⟨"src/a.py".toList, "blob".toList⟩])
          (fun _ => 0) "https://github.com/o/r".toList).result = .error e2 :=
  ⟨by decide,
    let ⟨e2, h2, _⟩ :=
      (fetch_failure_fails
        (sampleHttp [⟨"README.md".toList, "blob".toList⟩, ⟨"src/a.py".toList, "blob".toList⟩])
        (fun _ => 0) "https://github.com/o/r".toList "o".toList "r".toList "main".toList
        "abc".toList [⟨"README.md".toList, "blob".toList⟩, ⟨"src/a.py".toList, "blob".toList⟩]
        (by decide)
        ⟨_, _, _, by rfl, by rfl, by decide, by rfl, by rfl, by decide, by rfl, by rfl⟩).1
        ⟨"src/a.py".toList, "blob".toList⟩ (by decide)
        ⟨"Request failed with status code 404".toList, some 404⟩ (by rfl)
    ⟨e2, h2⟩⟩

/-- C8, as the code has it: when `getRepoContent` succeeds with the list `l`,
the call went through a selection `filesToFetch tree`, `l` has the length of
the selection, and the i-th record has as `metadata.source` the i-th selected
path, unchanged, and as `pageContent` the `data` of the raw-content response
for that path: under axios's default transform that is the body itself when
the body is not valid JSON, and the value parsed from the body when it is. -/
theorem records_match_selection (http : Http) (settle : Nat → Nat) (url : Str)
    (l : List ContentRecord) (h : (getRepoContent http settle url).result = .ok l) :
    ∃ owner repo branch sha tree,
      urlMatch url = some (owner, repo) ∧ Resolved http owner repo branch sha tree ∧
      l.length = (filesToFetch tree).length ∧
      List.Forall₂
        (fun (rec : ContentRecord) (file : TreeEntry) =>
          rec.metadata_source = file.path ∧
            ∃ r, http (contentUrl owner repo branch file.path) = .ok r ∧
              rec.pageContent = r.data.value ∧
              ∀ (jsonParse : Str → Option JsValue) (body : Str),
                r.data.value = transformResponse jsonParse body →
                (jsonParse body = none → rec.pageContent = .string body) ∧
                  ∀ parsed, jsonParse body = some parsed → rec.pageContent = parsed)
        l (filesToFetch tree) := by
  obtain ⟨owner, repo, branch, sha, tree, hurl, hres, _, hp⟩ :=
    getRepoContent_ok http settle url l h
  have hall := records_aligned http settle owner repo branch (filesToFetch tree) l hp
  refine ⟨owner, repo, branch, sha, tree, hurl, hres, hall.length_eq, ?_⟩
  refine hall.imp ?_
  rintro rec file ⟨hsrc, r, hr, hpage⟩
  refine ⟨hsrc, r, hr, hpage, ?_⟩
  intro jsonParse body hdata
  rw [hpage, hdata, transformResponse]
  constructor
  · intro hnone
    rw [hnone]
  · intro parsed hsome
    rw [hsome]

/-- C8 witness: `o/r` with the tree `README.md`, `src` (a directory),
`data.json`: two records, in the order of the selection, the first with the
text of `README.md`, the second with the parsed content of `data.json`. -/
theorem records_match_selection_witness :
    (getRepoContent
        (sampleHttp [⟨"README.md".toList, "blob".toList⟩, ⟨"src".toList, "tree".toList⟩,
          ⟨"data.json".toList, "blob".toList⟩])
        (fun _ => 0) "https://github.com/o/r".toList).result =
        .ok [⟨.string "hello".toList, "README.md".toList⟩,
          ⟨.array [], "data.json".toList⟩] ∧
      ∃ owner repo branch sha tree,
        urlMatch "https://github.com/o/r".toList = some (owner, repo) ∧
        Resolved
          (sampleHttp [⟨"README.md".toList, "blob".toList⟩, ⟨"src".toList, "tree".toList⟩,
            ⟨"data.json".toList, "blob".toList⟩])
          owner repo branch sha tree ∧
        [(⟨.string "hello".toList, "README.md".toList⟩ : ContentRecord),
            ⟨.array [], "data.json".toList⟩].length =
          (filesToFetch tree).length ∧
        List.Forall₂
          (fun (rec : ContentRecord) (file : TreeEntry) =>
            rec.metadata_source = file.path ∧
              ∃ r,
                sampleHttp
                    [⟨"README.md".toList, "blob".toList⟩, ⟨"src".toList, "tree".toList⟩,
                      ⟨"data.json".toList, "blob".toList⟩]
                    (contentUrl owner repo branch file.path) = .ok r ∧
                  rec.pageContent = r.data.value ∧
                  ∀ (jsonParse : Str → Option JsValue) (body : Str),
                    r.data.value = transformResponse jsonParse body →
                    (jsonParse body = none → rec.pageContent = .string body) ∧
                      ∀ parsed, jsonParse body = some parsed → rec.pageContent = parsed)
          [⟨.string "hello".toList, "README.md".toList⟩, ⟨.array [], "data.json".toList⟩]
          (filesToFetch tree) :=
  ⟨by rfl,
    records_match_selection
      (sampleHttp [⟨"README.md".toList, "blob".toList⟩, ⟨"src".toList, "tree".toList⟩,
        ⟨"data.json".toList, "blob".toList⟩])
      (fun _ => 0) "https://github.com/o/r".toList
      [⟨.string "hello".toList, "README.md".toList⟩, ⟨.array [], "data.json".toList⟩]
      (by rfl)⟩

/-- C8 as stated fails: the body of the raw-content response for `data.json`
is the text `[]`; `JSON.parse` makes the empty array of it, so that is the
`data` axios delivers and the `pageContent` of the record, not the text. -/
theorem page_content_parsed :
    (getRepoContent (sampleHttp [⟨"data.json".toList, "blob".toList⟩]) (fun _ => 0)
        "https://github.com/o/r".toList).result =
        .ok [⟨.array [], "data.json".toList⟩] ∧
      (∃ r,
        sampleHttp [⟨"data.json".toList, "blob".toList⟩]
            (contentUrl "o".toList "r".toList "main".toList "data.json".toList) = .ok r ∧
          ∀ jsonParse : Str → Option JsValue,
            jsonParse "[]".toList = some (.array []) →
            r.data.value = transformResponse jsonParse "[]".toList) ∧
      JsValue.array [] ≠ JsValue.string "[]".toList := by
  refine ⟨by rfl, ⟨_, by rfl, ?_⟩, ?_⟩
  · intro jsonParse hparse
    rw [transformResponse, hparse]
  · intro h
    cases h

/-- C9 as stated fails: the URL-parsing failure reaches the caller with the
message of line 51 as it is, without the fixed text in front. -/
theorem invalid_url_not_wrapped :
    (getRepoContent (sampleHttp []) (fun _ => 0) "example.org/owner/repo".toList).result =
        .error
          ⟨"Invalid GitHub URL format. Use https://github.com/owner/repo".toList, none⟩ ∧
      ¬ "Failed to fetch repository content:".toList <+:
        "Invalid GitHub URL format. Use https://github.com/owner/repo".toList := by
  refine ⟨by rfl, by decide⟩

/-- C9, as the code has it: once the URL matches, every failure of a stage up
to the selection (a rejected repository, branch or tree request, a missing
default branch, tree identifier or tree, an empty selection) reaches the
caller as one error whose message is the fixed text `Failed to fetch
repository content: `, then the status of the failure if it has one (and it is
not zero), then a space and the original message; a URL that does not match
fails with the invalid-URL error unwrapped. -/
theorem stage_failure_wrapped (http : Http) (settle : Nat → Nat) (url owner repo : Str)
    (e : JsError) (hurl : urlMatch url = some (owner, repo))
    (hfail : StageFailure http owner repo e) :
    (getRepoContent http settle url).result =
        .error
          ⟨"Failed to fetch repository content: ".toList ++ statusText e.status ++
            ' ' :: e.message, none⟩ ∧
      statusText none = [] ∧ statusText (some 0) = [] ∧
      (∀ n, 0 < n → statusText (some n) = Nat.toDigits 10 n) ∧
      ∀ url2, urlMatch url2 = none →
        (getRepoContent http settle url2).result = .error invalidUrlError := by
  refine ⟨?_, rfl, rfl, ?_, ?_⟩
  · have ht := tryBlock_stageFailure http settle owner repo e hfail
    rw [getRepoContent_of_match http settle url owner repo hurl]
    cases hb : tryBlock http settle owner repo with
    | mk first log =>
      rw [hb] at ht
      simp only at ht
      rw [ht]
      have hw : wrapError e =
          ⟨"Failed to fetch repository content: ".toList ++ statusText e.status ++
            ' ' :: e.message, none⟩ := by
        rw [wrapError, List.append_assoc]
        rfl
      simp only [hw]
  · intro n hn
    cases n with
    | zero => exact absurd hn (by decide)
    | succ m => rfl
  · intro url2 h2
    rw [getRepoContent, h2]

/-- C9 witness: the repository `x/y` is unknown to the sample collaborator, so
the repository-metadata request is rejected with status 404. -/
theorem stage_failure_wrapped_witness :
    urlMatch "https://github.com/x/y".toList = some ("x".toList, "y".toList) ∧
      (getRepoContent (sampleHttp []) (fun _ => 0) "https://github.com/x/y".toList).result =
        .error
          ⟨"Failed to fetch repository content: 404 Request failed with status code 404".toList,
            none⟩ :=
  ⟨by decide,
    (stage_failure_wrapped (sampleHttp []) (fun _ => 0) "https://github.com/x/y".toList
      "x".toList "y".toList ⟨"Request failed with status code 404".toList, some 404⟩
      (by decide) (StageFailure.repoRequest _ (by rfl))).1⟩

/-! ## The rejection of a content fetch -/

/-- The promise of line 102 is returned without `await`: when a content fetch
is rejected, the caller receives that rejection itself, status included, and
not an error built by the `catch` block. -/
theorem content_rejection_passes_catch :
    (getRepoContent
        (sampleHttp [⟨"README.md".toList, "blob".toList⟩, ⟨"src/a.py".toList, "blob".toList⟩])
        (fun _ => 0) "https://github.com/o/r".toList).result =
      .error ⟨"Request failed with status code 404".toList, some 404⟩ := by
  rfl

end GitQuery
